import Mathlib

/-!
Shallow embedding of `cross-bridge.cpp`: the `Person` data model, the crossing
log, and the two solvers `Bridge::crossOptimally` (Shielding Method) and
`Bridge::crossNaively` (Naive Method), together with theorems about them.

The roster (`waitingPeople` in the C++ `Bridge` class) is modelled as a
`List Person`; each solver is a pure function from the roster to the computed
total, the emitted log, and the roster's final contents (state passing for the
member-variable mutation done in the C++).
-/

namespace CrossBridge

/-- A person waiting to cross the bridge, mirroring the C++ `Person` class:
a `name` and a `speed` (the time to cross the bridge, in minutes). -/
structure Person where
  name : String
  speed : Nat
deriving DecidableEq, Inhabited

/-- One line of the crossing log: `X and Y cross`, `X crosses`, or
`X returns`, as printed by the two solvers. -/
inductive Event where
  | cross2 : Person → Person → Event
  | cross1 : Person → Event
  | ret : Person → Event
deriving DecidableEq

/-- The outcome of running one solver: the returned total, the emitted log and
the final contents of the `waitingPeople` member vector. -/
structure RunResult where
  total : Nat
  events : List Event
  waitingPeople : List Person
deriving DecidableEq

/-- `std::numeric_limits<int>::max()`, the sentinel speed used by the scan for
the fastest person in `crossNaively`. -/
def INT_MAX : Nat := 2147483647

/-- The comparison `Person::operator<` sorts by speed; for `std::sort` we model
the sort with the corresponding non-strict order on speeds. -/
def speedLE (a b : Person) : Prop := a.speed ≤ b.speed

instance : DecidableRel speedLE := fun a b => inferInstanceAs (Decidable (a.speed ≤ b.speed))

instance : IsTotal Person speedLE := ⟨fun a b => Nat.le_total a.speed b.speed⟩

instance : IsTrans Person speedLE := ⟨fun _ _ _ h h' => Nat.le_trans h h'⟩

/-- `waitingPeople[i]` (out-of-range reads never occur in the modelled code;
they default to the zero-speed person). -/
def personAt (ps : List Person) (i : Nat) : Person := (ps[i]?).getD default

/-- `waitingPeople[i].getSpeed()`. -/
def spAt (ps : List Person) (i : Nat) : Nat := (personAt ps i).speed

/-- The sum of all speeds in a roster. -/
def speedSum (ps : List Person) : Nat := (ps.map Person.speed).sum

/-- The minimum speed in a roster (0 for the empty roster). -/
def minSpeed : List Person → Nat
  | [] => 0
  | [p] => p.speed
  | p :: q :: rest => min p.speed (minSpeed (q :: rest))

/-- A valid roster per the spec's data model: all speeds are positive integers
(and fit in a C++ `int`, below the `INT_MAX` sentinel). -/
def ValidRoster (ps : List Person) : Prop :=
  ∀ p ∈ ps, 0 < p.speed ∧ p.speed < INT_MAX

instance : DecidablePred ValidRoster :=
  fun ps => inferInstanceAs (Decidable (∀ p ∈ ps, 0 < p.speed ∧ p.speed < INT_MAX))

/-- `totalShielding` computed in `crossOptimally`'s main loop: send the two
fastest, the fastest returns, send the two slowest, the second fastest
returns. -/
def shieldingCost (ps : List Person) : Nat :=
  spAt ps 1 + spAt ps 0 + spAt ps (ps.length - 1) + spAt ps 1

/-- `totalNaive` computed in `crossOptimally`'s main loop: slowest with
fastest, the fastest returns, next slowest with fastest, the fastest
returns. -/
def pairwiseCost (ps : List Person) : Nat :=
  spAt ps (ps.length - 1) + spAt ps 0 + spAt ps (ps.length - 2) + spAt ps 0

/-- The four log lines printed when the main loop uses the Shielding Method. -/
def shieldStepEvents (ps : List Person) : List Event :=
  [Event.cross2 (personAt ps 1) (personAt ps 0), Event.ret (personAt ps 0),
   Event.cross2 (personAt ps (ps.length - 1)) (personAt ps (ps.length - 2)),
   Event.ret (personAt ps 1)]

/-- The four log lines printed when the main loop uses the Naive Method. -/
def pairwiseStepEvents (ps : List Person) : List Event :=
  [Event.cross2 (personAt ps (ps.length - 1)) (personAt ps 0), Event.ret (personAt ps 0),
   Event.cross2 (personAt ps (ps.length - 2)) (personAt ps 0), Event.ret (personAt ps 0)]

/-- The 0-to-3-people-left handling after `crossOptimally`'s main loop,
including the `pop_back()` calls on `waitingPeople`. -/
def shieldBase (ps : List Person) : RunResult :=
  if ps.length = 0 then ⟨0, [], ps⟩
  else if ps.length = 1 then
    ⟨spAt ps 0, [Event.cross1 (personAt ps 0)], ps.dropLast⟩
  else if ps.length = 2 then
    ⟨spAt ps 1, [Event.cross2 (personAt ps 1) (personAt ps 0)], ps.dropLast.dropLast⟩
  else
    ⟨spAt ps 0 + spAt ps 1 + spAt ps 2,
     [Event.cross2 (personAt ps 2) (personAt ps 0), Event.ret (personAt ps 0),
      Event.cross2 (personAt ps 1) (personAt ps 0)],
     ps.dropLast.dropLast.dropLast⟩

/-- `crossOptimally`'s main loop (`while (waitingPeople.size() >= 4)`) followed
by `shieldBase`.  Each iteration compares the two candidate costs, logs the
four corresponding events, adds the chosen cost and pops the two slowest
people.  The loop runs at most `length / 2` times, so any fuel of at least
half the roster length gives the loop's exact behaviour; `shieldLoop` below
supplies `ps.length`. -/
def shieldLoopAux : Nat → List Person → RunResult
  | 0, ps => shieldBase ps
  | fuel + 1, ps =>
    if 4 ≤ ps.length then
      let rest := shieldLoopAux fuel (ps.dropLast.dropLast)
      if shieldingCost ps < pairwiseCost ps then
        ⟨shieldingCost ps + rest.total, shieldStepEvents ps ++ rest.events, rest.waitingPeople⟩
      else
        ⟨pairwiseCost ps + rest.total, pairwiseStepEvents ps ++ rest.events, rest.waitingPeople⟩
    else shieldBase ps

/-- The loop-plus-base-cases body of `crossOptimally`, applied to the sorted
roster. -/
def shieldLoop (ps : List Person) : RunResult := shieldLoopAux ps.length ps

/-- `Bridge::crossOptimally()`: sort the waiting people by speed (the
`std::sort` call mutates `waitingPeople`), then run the Shielding Method's
main loop and the 0-to-3-people base cases. -/
def crossOptimally (ps : List Person) : RunResult :=
  shieldLoop (List.insertionSort speedLE ps)

/-- One step of `crossNaively`'s scan for the fastest person: the running
`(fastest, fastestindex)` pair is replaced when a strictly smaller speed is
seen. -/
def scanStep (acc : Person × Int) (ip : Nat × Person) : Person × Int :=
  if ip.2.speed < acc.1.speed then (ip.2, (ip.1 : Int)) else acc

/-- `crossNaively`'s scan: starting from the sentinel `("maxint", INT_MAX)`
with `fastestindex = -1`, fold `scanStep` over the indexed roster. -/
def findFastest (ps : List Person) : Person × Int :=
  ps.enum.foldl scanStep (⟨"maxint", INT_MAX⟩, -1)

/-- The queue built by `crossNaively`: every person whose index differs from
`fastestindex`, in roster order. -/
def naiveQueue (ps : List Person) (fastestindex : Int) : List Person :=
  (ps.enum.filter (fun ip => (ip.1 : Int) != fastestindex)).map Prod.snd

/-- `crossNaively`'s queue-draining loop: the front person crosses with the
fastest (costing the front person's speed), and while the queue remains
non-empty the fastest returns (costing the fastest's speed). -/
def naiveQueueLoop (fastest : Person) : List Person → Nat × List Event
  | [] => (0, [])
  | [p] => (p.speed, [Event.cross2 p fastest])
  | p :: q :: rest =>
    let r := naiveQueueLoop fastest (q :: rest)
    (p.speed + (fastest.speed + r.1),
     Event.cross2 p fastest :: Event.ret fastest :: r.2)

/-- `Bridge::crossNaively()`: early returns for 0 and 1 people, otherwise scan
for the fastest person, queue everyone else, and drain the queue.  The member
vector `waitingPeople` is only read, never written, so the state component is
returned unchanged. -/
def crossNaively (ps : List Person) : RunResult :=
  if ps.length = 0 then ⟨0, [], ps⟩
  else if ps.length = 1 then ⟨spAt ps 0, [], ps⟩
  else
    let f := findFastest ps
    let r := naiveQueueLoop f.1 (naiveQueue ps f.2)
    ⟨r.1, r.2, ps⟩

/-! ### Basic facts about the getters and roster measures -/

theorem personAt_of_lt (ps : List Person) (i : Nat) (h : i < ps.length) :
    personAt ps i = ps[i] := by
  simp [personAt, List.getElem?_eq_getElem h]

theorem spAt_of_lt (ps : List Person) (i : Nat) (h : i < ps.length) :
    spAt ps i = ps[i].speed := by
  rw [spAt, personAt_of_lt ps i h]

theorem minSpeed_le : ∀ (ps : List Person), ∀ p ∈ ps, minSpeed ps ≤ p.speed
  | [], p, hp => absurd hp (List.not_mem_nil p)
  | [q], p, hp => by
      rcases List.mem_singleton.mp hp with rfl
      simp [minSpeed]
  | q :: r :: rest, p, hp => by
      rcases List.mem_cons.mp hp with rfl | hp'
      · simp only [minSpeed]
        exact Nat.min_le_left _ _
      · simp only [minSpeed]
        exact Nat.le_trans (Nat.min_le_right _ _) (minSpeed_le (r :: rest) p hp')

theorem minSpeed_mem : ∀ (ps : List Person), ps ≠ [] → ∃ p ∈ ps, p.speed = minSpeed ps
  | [], h => absurd rfl h
  | [q], _ => ⟨q, List.mem_singleton_self q, rfl⟩
  | q :: r :: rest, _ => by
      rcases Nat.le_total q.speed (minSpeed (r :: rest)) with h | h
      · exact ⟨q, List.mem_cons_self _ _, by simp only [minSpeed]; omega⟩
      · obtain ⟨p, hp, he⟩ := minSpeed_mem (r :: rest) (by simp)
        exact ⟨p, List.mem_cons_of_mem _ hp, by simp only [minSpeed]; omega⟩

theorem minSpeed_perm {ps qs : List Person} (h : ps.Perm qs) :
    minSpeed ps = minSpeed qs := by
  rcases ps with - | ⟨p, ps'⟩
  · rw [List.nil_perm] at h
    rw [h]
  · have hne : (p :: ps') ≠ [] := by simp
    have hne' : qs ≠ [] := by
      intro hq
      rw [hq, List.perm_nil] at h
      exact hne h
    obtain ⟨a, ha, hea⟩ := minSpeed_mem _ hne
    obtain ⟨b, hb, heb⟩ := minSpeed_mem _ hne'
    have h1 : minSpeed (p :: ps') ≤ b.speed := minSpeed_le _ b (h.mem_iff.mpr hb)
    have h2 : minSpeed qs ≤ a.speed := minSpeed_le _ a (h.mem_iff.mp ha)
    omega

theorem speedSum_perm {ps qs : List Person} (h : ps.Perm qs) :
    speedSum ps = speedSum qs :=
  (h.map Person.speed).sum_eq

theorem minSpeed_le_speedSum (ps : List Person) (h : ps ≠ []) :
    minSpeed ps ≤ speedSum ps := by
  obtain ⟨p, hp, he⟩ := minSpeed_mem ps h
  rw [← he]
  exact List.single_le_sum (fun x _ => Nat.zero_le x) _
    (List.mem_map.mpr ⟨p, hp, rfl⟩)

theorem speedSum_eraseIdx : ∀ (l : List Person) (j : Nat) (h : j < l.length),
    speedSum (l.eraseIdx j) + l[j].speed = speedSum l
  | a :: l, 0, _ => by
      simp [speedSum]
      omega
  | a :: l, j + 1, h => by
      have ih := speedSum_eraseIdx l j (by simpa using h)
      simp only [List.eraseIdx_cons_succ, List.getElem_cons_succ, speedSum,
        List.map_cons, List.sum_cons] at *
      omega

/-! ### The scan for the fastest person in `crossNaively` -/

theorem scanStep_speed (acc : Person × Int) (ip : Nat × Person) :
    (scanStep acc ip).1.speed = min acc.1.speed ip.2.speed := by
  unfold scanStep
  split
  · show ip.2.speed = _
    omega
  · show acc.1.speed = _
    omega

theorem scan_go_speed : ∀ (l : List Person) (k : Nat) (acc : Person × Int),
    ((List.enumFrom k l).foldl scanStep acc).1.speed =
      l.foldl (fun m p => min m p.speed) acc.1.speed
  | [], _, _ => rfl
  | a :: l, k, acc => by
      rw [List.enumFrom_cons, List.foldl_cons, List.foldl_cons,
        scan_go_speed l (k + 1) (scanStep acc (k, a)), scanStep_speed]

theorem foldl_min_speed : ∀ (l : List Person) (m : Nat), l ≠ [] →
    l.foldl (fun m p => min m p.speed) m = min m (minSpeed l)
  | [], _, h => absurd rfl h
  | [p], m, _ => by simp [minSpeed]
  | p :: q :: rest, m, _ => by
      have ih := foldl_min_speed (q :: rest) (min m p.speed) (by simp)
      simp only [List.foldl_cons] at *
      rw [ih]
      simp only [minSpeed]
      omega

theorem scan_go_result : ∀ (l : List Person) (k : Nat) (acc : Person × Int),
    (List.enumFrom k l).foldl scanStep acc = acc ∨
      ∃ j : Fin l.length,
        (List.enumFrom k l).foldl scanStep acc = (l.get j, ((k + (j : Nat) : Nat) : Int))
  | [], _, _ => Or.inl rfl
  | a :: l, k, acc => by
      rw [List.enumFrom_cons, List.foldl_cons]
      rcases scan_go_result l (k + 1) (scanStep acc (k, a)) with h | ⟨j, hj⟩
      · rw [h]
        unfold scanStep
        split
        · right
          exact ⟨⟨0, by simp⟩, by simp⟩
        · exact Or.inl rfl
      · right
        refine ⟨⟨(j : Nat) + 1, by simp⟩, ?_⟩
        rw [hj]
        have hc : ((k + 1 + (j : Nat) : Nat) : Int) = ((k + ((j : Nat) + 1) : Nat) : Int) := by
          omega
        simp only [List.get_eq_getElem, List.getElem_cons_succ] at *
        rw [hc]

theorem findFastest_spec (ps : List Person) (hne : ps ≠ [])
    (hv : ∀ p ∈ ps, p.speed < INT_MAX) :
    ∃ j : Fin ps.length,
      findFastest ps = (ps.get j, (((j : Nat) : Nat) : Int)) ∧
        (ps.get j).speed = minSpeed ps := by
  have hmin : minSpeed ps < INT_MAX := by
    obtain ⟨p, hp, he⟩ := minSpeed_mem ps hne
    rw [← he]
    exact hv p hp
  have hspeed : (findFastest ps).1.speed = minSpeed ps := by
    rw [findFastest, List.enum_eq_enumFrom, scan_go_speed, foldl_min_speed ps _ hne]
    show min INT_MAX (minSpeed ps) = minSpeed ps
    omega
  rcases scan_go_result ps 0 (⟨"maxint", INT_MAX⟩, -1) with h | ⟨j, hj⟩
  · exfalso
    rw [findFastest, List.enum_eq_enumFrom, h] at hspeed
    simp only at hspeed
    omega
  · refine ⟨j, ?_, ?_⟩
    · rw [findFastest, List.enum_eq_enumFrom, hj]
      norm_num
    · have : (findFastest ps).1 = ps.get j := by
        rw [findFastest, List.enum_eq_enumFrom, hj]
      rw [← this, hspeed]

/-! ### The queue built and drained by `crossNaively` -/

theorem filter_keep_all : ∀ (l : List Person) (k : Nat) (c : Int), c < (k : Int) →
    ((List.enumFrom k l).filter (fun ip => (ip.1 : Int) != c)).map Prod.snd = l
  | [], _, _, _ => rfl
  | a :: l, k, c, h => by
      have hk : (((k : Nat) : Int) != c) = true := by
        rw [bne_iff_ne]
        intro he
        omega
      simp only [List.enumFrom_cons, List.filter_cons, hk, if_true, List.map_cons]
      rw [filter_keep_all l (k + 1) c (by push_cast at *; omega)]

theorem filter_eraseIdx : ∀ (l : List Person) (k j : Nat), j < l.length →
    ((List.enumFrom k l).filter
        (fun ip => (ip.1 : Int) != ((k + j : Nat) : Int))).map Prod.snd
      = l.eraseIdx j
  | [], _, j, h => by simp at h
  | a :: l, k, 0, _ => by
      have hk : (((k : Nat) : Int) != ((k + 0 : Nat) : Int)) = false := by
        simp
      simp only [List.enumFrom_cons, List.filter_cons, hk, if_false, Bool.false_eq_true,
        List.eraseIdx_cons_zero]
      exact filter_keep_all l (k + 1) ((k + 0 : Nat) : Int) (by push_cast; omega)
  | a :: l, k, j + 1, h => by
      have hk : (((k : Nat) : Int) != ((k + (j + 1) : Nat) : Int)) = true := by
        rw [bne_iff_ne]
        intro he
        omega
      have hc : ((k + (j + 1) : Nat) : Int) = (((k + 1) + j : Nat) : Int) := by omega
      simp only [List.enumFrom_cons, List.filter_cons, hk, if_true, List.map_cons,
        List.eraseIdx_cons_succ]
      rw [hc, filter_eraseIdx l (k + 1) j (by simpa using h)]

theorem naiveQueue_eq_eraseIdx (ps : List Person) (j : Nat) (h : j < ps.length) :
    naiveQueue ps ((j : Nat) : Int) = ps.eraseIdx j := by
  have := filter_eraseIdx ps 0 j h
  simp only [Nat.zero_add] at this
  rw [naiveQueue, List.enum_eq_enumFrom]
  exact this

theorem naiveQueueLoop_total (f : Person) : ∀ (q : List Person), q ≠ [] →
    (naiveQueueLoop f q).1 = speedSum q + (q.length - 1) * f.speed
  | [], h => absurd rfl h
  | [p], _ => by simp [naiveQueueLoop, speedSum]
  | p :: a :: rest, _ => by
      have ih := naiveQueueLoop_total f (a :: rest) (by simp)
      simp only [naiveQueueLoop]
      rw [ih]
      simp only [speedSum, List.map_cons, List.sum_cons, List.length_cons]
      have : (rest.length + 1 + 1 - 1) * f.speed = (rest.length + 1 - 1) * f.speed + f.speed := by
        simp [Nat.succ_mul]
      rw [this]
      ring

/-- Closed form for `crossNaively`'s total on a roster of at least two people:
the sum of all speeds other than the chosen minimum, plus `(N - 2)` returns of
the fastest person (stated additively to avoid truncated subtraction). -/
theorem crossNaively_total_eq (ps : List Person) (h2 : 2 ≤ ps.length)
    (hv : ∀ p ∈ ps, p.speed < INT_MAX) :
    (crossNaively ps).total + minSpeed ps =
      speedSum ps + (ps.length - 2) * minSpeed ps := by
  have hne : ps ≠ [] := by
    intro h
    rw [h] at h2
    simp at h2
  obtain ⟨j, hff, hsp⟩ := findFastest_spec ps hne hv
  have hq : naiveQueue ps (findFastest ps).2 = ps.eraseIdx j := by
    rw [hff]
    exact naiveQueue_eq_eraseIdx ps j j.isLt
  have hqlen : (ps.eraseIdx j).length = ps.length - 1 := by
    rw [List.length_eraseIdx]
    simp [j.isLt]
  have hqne : ps.eraseIdx j ≠ [] := by
    intro h
    rw [h] at hqlen
    simp at hqlen
    omega
  have htot : (crossNaively ps).total =
      speedSum (ps.eraseIdx j) + (ps.length - 2) * minSpeed ps := by
    rw [crossNaively]
    rw [if_neg (by omega), if_neg (by omega)]
    simp only
    rw [hq, naiveQueueLoop_total _ _ hqne, hqlen, hff]
    simp only [List.get_eq_getElem] at hsp ⊢
    rw [hsp]
    have h11 : ps.length - 1 - 1 = ps.length - 2 := by omega
    rw [h11]
  have hsum := speedSum_eraseIdx ps j j.isLt
  rw [htot]
  have hj : ps[(j : Nat)].speed = minSpeed ps := by
    simpa using hsp
  rw [hj] at hsum
  omega

/-! ### Unfolding the Shielding Method's main loop -/

theorem shieldLoopAux_fuel : ∀ (f1 f2 : Nat) (ps : List Person),
    ps.length ≤ 2 * f1 + 3 → ps.length ≤ 2 * f2 + 3 →
    shieldLoopAux f1 ps = shieldLoopAux f2 ps
  | 0, 0, _, _, _ => rfl
  | 0, f2 + 1, ps, h1, _ => by
      simp only [shieldLoopAux]
      rw [if_neg (by omega)]
  | f1 + 1, 0, ps, _, h2 => by
      simp only [shieldLoopAux]
      rw [if_neg (by omega)]
  | f1 + 1, f2 + 1, ps, h1, h2 => by
      simp only [shieldLoopAux]
      by_cases h : 4 ≤ ps.length
      · have hl : ps.dropLast.dropLast.length = ps.length - 2 := by
          simp only [List.length_dropLast]
          omega
        rw [if_pos h, if_pos h,
          shieldLoopAux_fuel f1 f2 ps.dropLast.dropLast (by omega) (by omega)]
      · rw [if_neg h, if_neg h]

theorem shieldLoop_eq_base (ps : List Person) (h : ps.length ≤ 3) :
    shieldLoop ps = shieldBase ps := by
  rw [shieldLoop]
  cases hl : ps.length with
  | zero => rfl
  | succ n =>
      simp only [shieldLoopAux]
      rw [if_neg (by omega)]

theorem shieldLoop_eq_loop (ps : List Person) (h : 4 ≤ ps.length) :
    shieldLoop ps =
      if shieldingCost ps < pairwiseCost ps then
        ⟨shieldingCost ps + (shieldLoop ps.dropLast.dropLast).total,
         shieldStepEvents ps ++ (shieldLoop ps.dropLast.dropLast).events,
         (shieldLoop ps.dropLast.dropLast).waitingPeople⟩
      else
        ⟨pairwiseCost ps + (shieldLoop ps.dropLast.dropLast).total,
         pairwiseStepEvents ps ++ (shieldLoop ps.dropLast.dropLast).events,
         (shieldLoop ps.dropLast.dropLast).waitingPeople⟩ := by
  have hl : ps.dropLast.dropLast.length = ps.length - 2 := by
    simp only [List.length_dropLast]
    omega
  obtain ⟨n, hn⟩ : ∃ n, ps.length = n + 1 := ⟨ps.length - 1, by omega⟩
  rw [shieldLoop, hn]
  simp only [shieldLoopAux]
  rw [if_pos (by omega)]
  rw [shieldLoopAux_fuel n ps.dropLast.dropLast.length ps.dropLast.dropLast
    (by omega) (by omega)]
  rfl

theorem shieldLoop_total_loop (ps : List Person) (h : 4 ≤ ps.length) :
    (shieldLoop ps).total =
      min (shieldingCost ps) (pairwiseCost ps) + (shieldLoop ps.dropLast.dropLast).total := by
  rw [shieldLoop_eq_loop ps h]
  split
  · show shieldingCost ps + _ = _
    omega
  · show pairwiseCost ps + _ = _
    omega

theorem shieldBase_total (ps : List Person) :
    (shieldBase ps).total =
      if ps.length = 0 then 0
      else if ps.length = 1 then spAt ps 0
      else if ps.length = 2 then spAt ps 1
      else spAt ps 0 + spAt ps 1 + spAt ps 2 := by
  rw [shieldBase]
  split_ifs <;> rfl

theorem shieldBase_waiting (ps : List Person) (h : ps.length ≤ 3) :
    (shieldBase ps).waitingPeople = [] := by
  rw [shieldBase]
  by_cases h0 : ps.length = 0
  · rw [if_pos h0]
    exact List.eq_nil_of_length_eq_zero h0
  · rw [if_neg h0]
    by_cases h1 : ps.length = 1
    · rw [if_pos h1]
      apply List.eq_nil_of_length_eq_zero
      simp [List.length_dropLast, h1]
    · rw [if_neg h1]
      by_cases h2 : ps.length = 2
      · rw [if_pos h2]
        apply List.eq_nil_of_length_eq_zero
        simp [List.length_dropLast, h2]
      · rw [if_neg h2]
        apply List.eq_nil_of_length_eq_zero
        simp only [List.length_dropLast]
        omega

theorem shieldLoop_waiting : ∀ (ps : List Person), (shieldLoop ps).waitingPeople = []
  | ps => by
      by_cases h : 4 ≤ ps.length
      · rw [shieldLoop_eq_loop ps h]
        have hrec := shieldLoop_waiting ps.dropLast.dropLast
        split
        · exact hrec
        · exact hrec
      · rw [shieldLoop_eq_base ps (by omega)]
        exact shieldBase_waiting ps (by omega)
  termination_by ps => ps.length
  decreasing_by
    show ps.dropLast.dropLast.length < ps.length
    simp only [List.length_dropLast]
    omega

/-! ### Index and sum bookkeeping for the sorted roster -/

theorem spAt_of_ge (ps : List Person) (i : Nat) (h : ps.length ≤ i) :
    spAt ps i = 0 := by
  simp only [spAt, personAt, List.getElem?_eq_none h, Option.getD_none]
  rfl

theorem spAt_dropLast (ps : List Person) (i : Nat) (h : i < ps.length - 1) :
    spAt ps.dropLast i = spAt ps i := by
  simp only [spAt, personAt, List.getElem?_dropLast, if_pos h]

theorem spAt_map_speed (l : List Person) (i : Nat) :
    spAt l i = ((l.map Person.speed)[i]?).getD 0 := by
  rcases Nat.lt_or_ge i l.length with h | h
  · rw [spAt_of_lt l i h]
    simp [List.getElem?_map, List.getElem?_eq_getElem h]
  · rw [spAt_of_ge l i h]
    rw [List.getElem?_eq_none (by simpa using h)]
    rfl

theorem spAt_le_speedSum (ps : List Person) (i : Nat) (h : i < ps.length) :
    spAt ps i ≤ speedSum ps := by
  rw [spAt_of_lt ps i h]
  exact List.single_le_sum (fun x _ => Nat.zero_le x) _
    (List.mem_map.mpr ⟨ps[i], List.getElem_mem h, rfl⟩)

theorem speedSum_dropLast (ps : List Person) (h : ps ≠ []) :
    speedSum ps = speedSum ps.dropLast + spAt ps (ps.length - 1) := by
  have hlen : 0 < ps.length := List.length_pos.mpr h
  conv_lhs => rw [speedSum, ← List.dropLast_append_getLast h]
  rw [List.map_append, List.sum_append]
  rw [spAt_of_lt ps (ps.length - 1) (by omega), ← List.getLast_eq_getElem ps h]
  simp [speedSum]

theorem speedSum_decomp (ps : List Person) (h : 2 ≤ ps.length) :
    speedSum ps =
      speedSum ps.dropLast.dropLast + spAt ps (ps.length - 2) + spAt ps (ps.length - 1) := by
  have hne : ps ≠ [] := by
    intro he
    rw [he] at h
    simp at h
  have hlen : ps.dropLast.length = ps.length - 1 := List.length_dropLast ps
  have hne' : ps.dropLast ≠ [] := by
    apply List.length_pos.mp
    omega
  have h1 := speedSum_dropLast ps hne
  have h2 := speedSum_dropLast ps.dropLast hne'
  rw [hlen] at h2
  rw [spAt_dropLast ps (ps.length - 1 - 1) (by omega)] at h2
  have h11 : ps.length - 1 - 1 = ps.length - 2 := by omega
  rw [h11] at h2
  omega

theorem sorted_dropLast {ps : List Person} (h : List.Sorted speedLE ps) :
    List.Sorted speedLE ps.dropLast :=
  List.Pairwise.sublist (List.dropLast_sublist ps) h

theorem sorted_spAt_le {ps : List Person} (h : List.Sorted speedLE ps)
    (i j : Nat) (hij : i ≤ j) (hj : j < ps.length) : spAt ps i ≤ spAt ps j := by
  rcases Nat.eq_or_lt_of_le hij with rfl | hlt
  · exact Nat.le_refl _
  · have := List.pairwise_iff_get.mp h ⟨i, by omega⟩ ⟨j, hj⟩ hlt
    rw [spAt_of_lt ps i (by omega), spAt_of_lt ps j hj]
    exact this

theorem sorted_head_minSpeed {ps : List Person} (h : List.Sorted speedLE ps)
    (hne : ps ≠ []) : spAt ps 0 = minSpeed ps := by
  have hlen : 0 < ps.length := List.length_pos.mpr hne
  obtain ⟨p, hp, he⟩ := minSpeed_mem ps hne
  have h1 : minSpeed ps ≤ spAt ps 0 := by
    rw [spAt_of_lt ps 0 hlen]
    exact minSpeed_le ps _ (List.getElem_mem hlen)
  have h2 : spAt ps 0 ≤ p.speed := by
    rcases ps with - | ⟨q, rest⟩
    · exact absurd rfl hne
    · rcases List.mem_cons.mp hp with rfl | hp'
      · simp [spAt, personAt]
      · have := List.rel_of_sorted_cons h p hp'
        simpa [spAt, personAt] using this
  omega

theorem speedSum_length_one (l : List Person) (h : l.length = 1) :
    speedSum l = spAt l 0 := by
  rcases l with - | ⟨p, rest⟩
  · simp at h
  · rcases rest with - | ⟨q, rest'⟩
    · simp [speedSum, spAt, personAt]
    · simp at h

/-- Key inequality: on a sorted roster of at least two people, the Shielding
Method's loop-plus-base total is at most the Naive Method's closed-form total
(`sum of the others + (N - 2) returns of the fastest`), stated additively. -/
theorem shieldLoop_total_le : ∀ (ps : List Person), List.Sorted speedLE ps →
    2 ≤ ps.length →
    (shieldLoop ps).total + spAt ps 0 ≤ speedSum ps + (ps.length - 2) * spAt ps 0
  | ps, hs, h2 => by
    by_cases h4 : 4 ≤ ps.length
    · have hlen2 : ps.dropLast.dropLast.length = ps.length - 2 := by
        simp only [List.length_dropLast]
        omega
      have hrest := shieldLoop_total_le ps.dropLast.dropLast
        (sorted_dropLast (sorted_dropLast hs)) (by omega)
      have hsp0 : spAt ps.dropLast.dropLast 0 = spAt ps 0 := by
        rw [spAt_dropLast ps.dropLast 0 (by simp only [List.length_dropLast]; omega),
          spAt_dropLast ps 0 (by omega)]
      have hdec := speedSum_decomp ps (by omega)
      rw [shieldLoop_total_loop ps h4]
      rw [hlen2, hsp0] at hrest
      have h42 : ps.length - 2 - 2 = ps.length - 4 := by omega
      rw [h42] at hrest
      have hminle : min (shieldingCost ps) (pairwiseCost ps) ≤ pairwiseCost ps :=
        Nat.min_le_right _ _
      have hpair : pairwiseCost ps =
          spAt ps (ps.length - 1) + spAt ps 0 + spAt ps (ps.length - 2) + spAt ps 0 := rfl
      have hmul : (ps.length - 2) * spAt ps 0 =
          (ps.length - 4) * spAt ps 0 + 2 * spAt ps 0 := by
        have he : ps.length - 2 = (ps.length - 4) + 2 := by omega
        rw [he, Nat.add_mul]
      generalize (ps.length - 4) * spAt ps 0 = A at hrest hmul
      generalize (ps.length - 2) * spAt ps 0 = B at hmul ⊢
      omega
    · rw [shieldLoop_eq_base ps (by omega), shieldBase_total]
      rw [if_neg (by omega), if_neg (by omega)]
      have hdec := speedSum_decomp ps h2
      by_cases h2' : ps.length = 2
      · rw [if_pos h2']
        have hnil : ps.dropLast.dropLast = [] := by
          apply List.eq_nil_of_length_eq_zero
          simp only [List.length_dropLast]
          omega
        rw [hnil] at hdec
        have hz : speedSum ([] : List Person) = 0 := rfl
        rw [hz, h2'] at hdec
        have hm : (ps.length - 2) * spAt ps 0 = 0 := by
          rw [h2']
          simp
        rw [hm]
        norm_num at hdec
        omega
      · have h3' : ps.length = 3 := by omega
        rw [if_neg h2']
        have hone : ps.dropLast.dropLast.length = 1 := by
          simp only [List.length_dropLast]
          omega
        have hsum1 : speedSum ps.dropLast.dropLast = spAt ps.dropLast.dropLast 0 :=
          speedSum_length_one _ hone
        have hsp0 : spAt ps.dropLast.dropLast 0 = spAt ps 0 := by
          rw [spAt_dropLast ps.dropLast 0 (by simp only [List.length_dropLast]; omega),
            spAt_dropLast ps 0 (by omega)]
        rw [hsum1, hsp0] at hdec
        have h31 : ps.length - 2 = 1 := by omega
        have h32 : ps.length - 1 = 2 := by omega
        rw [h31, h32] at hdec
        have hm : (ps.length - 2) * spAt ps 0 = spAt ps 0 := by
          rw [h31, Nat.one_mul]
        rw [hm]
        omega
  termination_by ps => ps.length
  decreasing_by
    show ps.dropLast.dropLast.length < ps.length
    simp only [List.length_dropLast]
    omega

/-! ### The Shielding total depends only on the speed sequence, monotonically -/

theorem map_speed_length {l1 l2 : List Person}
    (h : l1.map Person.speed = l2.map Person.speed) : l1.length = l2.length := by
  rw [← List.length_map l1 Person.speed, h, List.length_map]

theorem shieldingCost_speeds {l1 l2 : List Person}
    (h : l1.map Person.speed = l2.map Person.speed) :
    shieldingCost l1 = shieldingCost l2 := by
  have hlen := map_speed_length h
  have hsp : ∀ i, spAt l1 i = spAt l2 i := fun i => by
    rw [spAt_map_speed, spAt_map_speed, h]
  rw [shieldingCost, shieldingCost, hlen, hsp 1, hsp 0, hsp (l2.length - 1)]

theorem pairwiseCost_speeds {l1 l2 : List Person}
    (h : l1.map Person.speed = l2.map Person.speed) :
    pairwiseCost l1 = pairwiseCost l2 := by
  have hlen := map_speed_length h
  have hsp : ∀ i, spAt l1 i = spAt l2 i := fun i => by
    rw [spAt_map_speed, spAt_map_speed, h]
  rw [pairwiseCost, pairwiseCost, hlen, hsp 0, hsp (l2.length - 1), hsp (l2.length - 2)]

theorem shieldLoop_total_speeds : ∀ (l1 l2 : List Person),
    l1.map Person.speed = l2.map Person.speed →
    (shieldLoop l1).total = (shieldLoop l2).total
  | l1, l2, h => by
    have hlen := map_speed_length h
    have hsp : ∀ i, spAt l1 i = spAt l2 i := fun i => by
      rw [spAt_map_speed, spAt_map_speed, h]
    by_cases h4 : 4 ≤ l1.length
    · have hmap : l1.dropLast.dropLast.map Person.speed
          = l2.dropLast.dropLast.map Person.speed := by
        rw [List.map_dropLast, List.map_dropLast, List.map_dropLast, List.map_dropLast, h]
      have ih := shieldLoop_total_speeds _ _ hmap
      rw [shieldLoop_total_loop l1 h4, shieldLoop_total_loop l2 (by omega),
        shieldingCost_speeds h, pairwiseCost_speeds h, ih]
    · rw [shieldLoop_eq_base l1 (by omega), shieldLoop_eq_base l2 (by omega),
        shieldBase_total, shieldBase_total, hlen, hsp 0, hsp 1, hsp 2]
  termination_by l1 l2 => l1.length
  decreasing_by
    show l1.dropLast.dropLast.length < l1.length
    simp only [List.length_dropLast]
    omega

theorem spAt_mono {l1 l2 : List Person} (h : List.Forall₂ speedLE l1 l2) (i : Nat) :
    spAt l1 i ≤ spAt l2 i := by
  obtain ⟨hlen, hget⟩ := List.forall₂_iff_get.mp h
  rcases Nat.lt_or_ge i l1.length with hi | hi
  · rw [spAt_of_lt l1 i hi, spAt_of_lt l2 i (by omega)]
    exact hget i hi (by omega)
  · rw [spAt_of_ge l1 i hi, spAt_of_ge l2 i (by omega)]

theorem forall₂_dropLast : ∀ {l1 l2 : List Person},
    List.Forall₂ speedLE l1 l2 → List.Forall₂ speedLE l1.dropLast l2.dropLast := by
  intro l1 l2 h
  induction h with
  | nil => exact List.Forall₂.nil
  | cons hab htail ih =>
      rename_i a b t1 t2
      rcases t1 with - | ⟨x, t1'⟩
      · cases htail
        exact List.Forall₂.nil
      · rcases t2 with - | ⟨y, t2'⟩
        · cases htail
        · rw [List.dropLast_cons₂, List.dropLast_cons₂]
          exact List.Forall₂.cons hab ih

theorem shieldingCost_mono {l1 l2 : List Person} (h : List.Forall₂ speedLE l1 l2) :
    shieldingCost l1 ≤ shieldingCost l2 := by
  have hlen := h.length_eq
  rw [shieldingCost, shieldingCost, hlen]
  have hsp := spAt_mono h
  exact Nat.add_le_add (Nat.add_le_add (Nat.add_le_add (hsp 1) (hsp 0)) (hsp _)) (hsp 1)

theorem pairwiseCost_mono {l1 l2 : List Person} (h : List.Forall₂ speedLE l1 l2) :
    pairwiseCost l1 ≤ pairwiseCost l2 := by
  have hlen := h.length_eq
  rw [pairwiseCost, pairwiseCost, hlen]
  have hsp := spAt_mono h
  exact Nat.add_le_add (Nat.add_le_add (Nat.add_le_add (hsp _) (hsp 0)) (hsp _)) (hsp 0)

/-- The Shielding total is pointwise monotone in the speed sequence. -/
theorem shieldLoop_total_mono : ∀ (l1 l2 : List Person),
    List.Forall₂ speedLE l1 l2 → (shieldLoop l1).total ≤ (shieldLoop l2).total
  | l1, l2, h => by
    have hlen := h.length_eq
    by_cases h4 : 4 ≤ l1.length
    · have ih := shieldLoop_total_mono _ _ (forall₂_dropLast (forall₂_dropLast h))
      rw [shieldLoop_total_loop l1 h4, shieldLoop_total_loop l2 (by omega)]
      exact Nat.add_le_add (min_le_min (shieldingCost_mono h) (pairwiseCost_mono h)) ih
    · rw [shieldLoop_eq_base l1 (by omega), shieldLoop_eq_base l2 (by omega),
        shieldBase_total, shieldBase_total, hlen]
      have h0 := spAt_mono h 0
      have h1 := spAt_mono h 1
      have h2 := spAt_mono h 2
      split_ifs <;> omega
  termination_by l1 l2 => l1.length
  decreasing_by
    show l1.dropLast.dropLast.length < l1.length
    simp only [List.length_dropLast]
    omega

/-! ### Pointwise domination of sorted rosters under a single speed increase -/

theorem forall₂_speedLE_refl : ∀ (l : List Person), List.Forall₂ speedLE l l
  | [] => List.Forall₂.nil
  | _ :: rest => List.Forall₂.cons (Nat.le_refl _) (forall₂_speedLE_refl rest)

theorem forall₂_cons_orderedInsert : ∀ (m : List Person) (x c : Person),
    x.speed ≤ c.speed → List.Sorted speedLE (x :: m) →
    List.Forall₂ speedLE (x :: m) (List.orderedInsert speedLE c m)
  | [], x, c, hxc, _ => List.Forall₂.cons hxc List.Forall₂.nil
  | y :: m', x, c, hxc, hs => by
      rw [List.orderedInsert]
      by_cases h : speedLE c y
      · rw [if_pos h]
        exact List.Forall₂.cons hxc
          (List.Forall₂.cons (Nat.le_refl _) (forall₂_speedLE_refl m'))
      · rw [if_neg h]
        have hxy : speedLE x y := List.rel_of_sorted_cons hs y (by simp)
        have hyc : y.speed ≤ c.speed := by
          simp only [speedLE, Nat.not_le] at h
          omega
        exact List.Forall₂.cons hxy
          (forall₂_cons_orderedInsert m' y c hyc hs.of_cons)

theorem forall₂_orderedInsert_cons : ∀ (la lb : List Person) (c y : Person),
    List.Forall₂ speedLE la lb → c.speed ≤ y.speed → List.Sorted speedLE (y :: lb) →
    List.Forall₂ speedLE (List.orderedInsert speedLE c la) (y :: lb)
  | [], lb, c, y, h, hcy, _ => by
      cases h
      exact List.Forall₂.cons hcy List.Forall₂.nil
  | u :: la', lb, c, y, h, hcy, hs => by
      rcases h with - | ⟨huv, h'⟩
      rename_i v lb'
      rw [List.orderedInsert]
      by_cases hcu : speedLE c u
      · rw [if_pos hcu]
        exact List.Forall₂.cons hcy (List.Forall₂.cons huv h')
      · rw [if_neg hcu]
        have huc : u.speed ≤ c.speed := by
          simp only [speedLE, Nat.not_le] at hcu
          omega
        have hyv : speedLE y v := List.rel_of_sorted_cons hs v (by simp)
        exact List.Forall₂.cons (Nat.le_trans huc hcy)
          (forall₂_orderedInsert_cons la' lb' c v h' (Nat.le_trans hcy hyv) hs.of_cons)

theorem forall₂_orderedInsert_mono : ∀ (la lb : List Person) (c : Person),
    List.Forall₂ speedLE la lb → List.Sorted speedLE lb →
    List.Forall₂ speedLE (List.orderedInsert speedLE c la) (List.orderedInsert speedLE c lb)
  | [], lb, c, h, _ => by
      cases h
      exact List.Forall₂.cons (Nat.le_refl _) List.Forall₂.nil
  | u :: la', lb, c, h, hsb => by
      rcases h with - | ⟨huv, h'⟩
      rename_i v lb'
      rw [List.orderedInsert, List.orderedInsert]
      by_cases hcu : speedLE c u
      · have hcv : speedLE c v := Nat.le_trans hcu huv
        rw [if_pos hcu, if_pos hcv]
        exact List.Forall₂.cons (Nat.le_refl _) (List.Forall₂.cons huv h')
      · rw [if_neg hcu]
        by_cases hcv : speedLE c v
        · rw [if_pos hcv]
          have huc : u.speed ≤ c.speed := by
            simp only [speedLE, Nat.not_le] at hcu
            omega
          exact List.Forall₂.cons huc
            (forall₂_orderedInsert_cons la' lb' c v h' hcv hsb)
        · rw [if_neg hcv]
          exact List.Forall₂.cons huv
            (forall₂_orderedInsert_mono la' lb' c h' hsb.of_cons)

theorem forall₂_orderedInsert_elem : ∀ (m : List Person) (a b : Person),
    a.speed ≤ b.speed → List.Sorted speedLE m →
    List.Forall₂ speedLE (List.orderedInsert speedLE a m) (List.orderedInsert speedLE b m)
  | [], a, b, hab, _ => List.Forall₂.cons hab List.Forall₂.nil
  | x :: m', a, b, hab, hs => by
      rw [List.orderedInsert, List.orderedInsert]
      by_cases hax : speedLE a x
      · rw [if_pos hax]
        by_cases hbx : speedLE b x
        · rw [if_pos hbx]
          exact List.Forall₂.cons hab
            (List.Forall₂.cons (Nat.le_refl _) (forall₂_speedLE_refl m'))
        · rw [if_neg hbx]
          have hxb : x.speed ≤ b.speed := by
            simp only [speedLE, Nat.not_le] at hbx
            omega
          exact List.Forall₂.cons hax (forall₂_cons_orderedInsert m' x b hxb hs)
      · have hax' : x.speed ≤ a.speed := by
          simp only [speedLE, Nat.not_le] at hax
          omega
        have hbx : ¬ speedLE b x := by
          simp only [speedLE, Nat.not_le] at hax ⊢
          omega
        rw [if_neg hax, if_neg hbx]
        exact List.Forall₂.cons (Nat.le_refl _)
          (forall₂_orderedInsert_elem m' a b hab hs.of_cons)

/-- Increasing one person's speed pointwise dominates the sorted roster. -/
theorem forall₂_insertionSort_update : ∀ (xs ys : List Person) (p p' : Person),
    p.speed ≤ p'.speed →
    List.Forall₂ speedLE (List.insertionSort speedLE (xs ++ p :: ys))
      (List.insertionSort speedLE (xs ++ p' :: ys))
  | [], ys, p, p', hpp => by
      simp only [List.nil_append, List.insertionSort]
      exact forall₂_orderedInsert_elem _ p p' hpp (List.sorted_insertionSort speedLE ys)
  | x :: xs', ys, p, p', hpp => by
      simp only [List.cons_append, List.insertionSort]
      exact forall₂_orderedInsert_mono _ _ x
        (forall₂_insertionSort_update xs' ys p p' hpp)
        (List.sorted_insertionSort speedLE _)

/-! ### Small rosters, and decompositions used for monotonicity -/

theorem crossNaively_nil : crossNaively [] = ⟨0, [], []⟩ := rfl

theorem crossOptimally_nil : crossOptimally [] = ⟨0, [], []⟩ := rfl

theorem crossNaively_singleton (p : Person) : crossNaively [p] = ⟨p.speed, [], [p]⟩ := rfl

theorem crossOptimally_singleton (p : Person) :
    crossOptimally [p] = ⟨p.speed, [Event.cross1 p], []⟩ := rfl

theorem crossNaively_pair (a b : Person) (ha : a.speed < INT_MAX) :
    (crossNaively [a, b]).total = max a.speed b.speed := by
  have hstep1 : scanStep (⟨"maxint", INT_MAX⟩, -1) (0, a) = (a, 0) := by
    rw [scanStep, if_pos ha]
    rfl
  have hff : findFastest [a, b] = scanStep (a, 0) (1, b) := by
    rw [findFastest]
    simp only [List.enum_eq_enumFrom, List.enumFrom_cons, List.enumFrom_nil,
      List.foldl_cons, List.foldl_nil, hstep1]
  by_cases hba : b.speed < a.speed
  · have hff2 : findFastest [a, b] = (b, 1) := by
      rw [hff, scanStep, if_pos hba]
      rfl
    rw [crossNaively, if_neg (by simp), if_neg (by simp)]
    simp only [hff2]
    have hq : naiveQueue [a, b] 1 = [a] := by
      simp [naiveQueue, List.enum_eq_enumFrom, List.enumFrom_cons, List.enumFrom_nil]
    rw [hq]
    simp only [naiveQueueLoop]
    omega
  · have hff2 : findFastest [a, b] = (a, 0) := by
      rw [hff, scanStep, if_neg hba]
    rw [crossNaively, if_neg (by simp), if_neg (by simp)]
    simp only [hff2]
    have hq : naiveQueue [a, b] 0 = [b] := by
      simp [naiveQueue, List.enum_eq_enumFrom, List.enumFrom_cons, List.enumFrom_nil]
    rw [hq]
    simp only [naiveQueueLoop]
    omega

theorem crossOptimally_pair (a b : Person) :
    (crossOptimally [a, b]).total = max a.speed b.speed := by
  rw [crossOptimally]
  by_cases hab : speedLE a b
  · have hsort : List.insertionSort speedLE [a, b] = [a, b] := by
      simp [List.insertionSort, List.orderedInsert, if_pos hab]
    rw [hsort, shieldLoop_eq_base _ (by simp), shieldBase_total]
    rw [if_neg (by simp), if_neg (by simp), if_pos (by simp)]
    simp only [speedLE] at hab
    simp [spAt, personAt]
    omega
  · have hsort : List.insertionSort speedLE [a, b] = [b, a] := by
      simp [List.insertionSort, List.orderedInsert, if_neg hab]
    rw [hsort, shieldLoop_eq_base _ (by simp), shieldBase_total]
    rw [if_neg (by simp), if_neg (by simp), if_pos (by simp)]
    simp only [speedLE, Nat.not_le] at hab
    simp [spAt, personAt]
    omega

theorem minSpeed_cons (a : Person) (l : List Person) (h : l ≠ []) :
    minSpeed (a :: l) = min a.speed (minSpeed l) := by
  rcases l with - | ⟨x, l'⟩
  · exact absurd rfl h
  · rfl

theorem minSpeed_middle : ∀ (xs : List Person) (p : Person) (ys : List Person),
    xs ++ ys ≠ [] →
    minSpeed (xs ++ p :: ys) = min p.speed (minSpeed (xs ++ ys))
  | [], p, ys, h => by
      simp only [List.nil_append] at *
      exact minSpeed_cons p ys h
  | x :: xs', p, ys, h => by
      simp only [List.cons_append]
      rw [minSpeed_cons x (xs' ++ p :: ys) (by simp)]
      by_cases h' : xs' ++ ys = []
      · rcases List.append_eq_nil.mp h' with ⟨rfl, rfl⟩
        simp only [List.nil_append, List.append_nil]
        show min x.speed (minSpeed [p]) = min p.speed (minSpeed [x])
        simp only [minSpeed]
        omega
      · rw [minSpeed_middle xs' p ys h', minSpeed_cons x (xs' ++ ys) h']
        omega

theorem speedSum_middle (xs : List Person) (p : Person) (ys : List Person) :
    speedSum (xs ++ p :: ys) = p.speed + speedSum (xs ++ ys) := by
  simp only [speedSum, List.map_append, List.sum_append, List.map_cons, List.sum_cons]
  omega

/-- Two permutation-equivalent rosters sort to the same speed sequence. -/
theorem insertionSort_map_speed_perm {ps qs : List Person} (h : ps.Perm qs) :
    (List.insertionSort speedLE ps).map Person.speed
      = (List.insertionSort speedLE qs).map Person.speed := by
  apply List.eq_of_perm_of_sorted (r := (· ≤ · : Nat → Nat → Prop))
  · exact ((List.perm_insertionSort speedLE ps).trans
      (h.trans (List.perm_insertionSort speedLE qs).symm)).map Person.speed
  · exact List.Pairwise.map Person.speed (fun a b hab => hab)
      (List.sorted_insertionSort speedLE ps)
  · exact List.Pairwise.map Person.speed (fun a b hab => hab)
      (List.sorted_insertionSort speedLE qs)

theorem crossNaively_waiting (ps : List Person) :
    (crossNaively ps).waitingPeople = ps := by
  rw [crossNaively]
  split_ifs <;> rfl

theorem crossOptimally_waiting (ps : List Person) :
    (crossOptimally ps).waitingPeople = [] := by
  rw [crossOptimally]
  exact shieldLoop_waiting _

/-- `crossOptimally ≤ crossNaively` on rosters of at least two in-range
people: chain the sorted-roster inequality through the permutation facts. -/
theorem optimal_le_naive_core (ps : List Person) (h2 : 2 ≤ ps.length)
    (hv : ∀ p ∈ ps, p.speed < INT_MAX) :
    (crossOptimally ps).total ≤ (crossNaively ps).total := by
  have hsorted := List.sorted_insertionSort speedLE ps
  have hperm := List.perm_insertionSort speedLE ps
  have hlen : (List.insertionSort speedLE ps).length = ps.length := hperm.length_eq
  have hne' : List.insertionSort speedLE ps ≠ [] := by
    intro h
    rw [h] at hlen
    simp at hlen
    omega
  have hle := shieldLoop_total_le (List.insertionSort speedLE ps) hsorted (by omega)
  have hhead : spAt (List.insertionSort speedLE ps) 0 = minSpeed ps := by
    rw [sorted_head_minSpeed hsorted hne']
    exact minSpeed_perm hperm
  have hsum : speedSum (List.insertionSort speedLE ps) = speedSum ps :=
    speedSum_perm hperm
  have hnaive := crossNaively_total_eq ps h2 hv
  rw [hhead, hsum, hlen] at hle
  rw [crossOptimally]
  generalize (ps.length - 2) * minSpeed ps = A at hle hnaive
  omega

/-! ### The claims -/

/-- C1: for every roster of people with positive integer speeds, the total
returned by the ShieldingSolver (`Bridge::crossOptimally`) is less than or
equal to the total returned by the GreedySolver (`Bridge::crossNaively`) on
the same roster. -/
theorem c1_optimal_le_naive (ps : List Person) (hv : ValidRoster ps) :
    (crossOptimally ps).total ≤ (crossNaively ps).total := by
  rcases ps with - | ⟨p, rest⟩
  · rw [crossNaively_nil, crossOptimally_nil]
  · rcases rest with - | ⟨q, rest'⟩
    · rw [crossNaively_singleton, crossOptimally_singleton]
    · exact optimal_le_naive_core _ (by simp) (fun r hr => (hv r hr).2)

theorem c1_optimal_le_naive_witness :
    ValidRoster [⟨"A", 1⟩, ⟨"B", 2⟩, ⟨"C", 5⟩, ⟨"D", 10⟩] ∧
      (crossOptimally [⟨"A", 1⟩, ⟨"B", 2⟩, ⟨"C", 5⟩, ⟨"D", 10⟩]).total ≤
        (crossNaively [⟨"A", 1⟩, ⟨"B", 2⟩, ⟨"C", 5⟩, ⟨"D", 10⟩]).total :=
  ⟨by decide, c1_optimal_le_naive _ (by decide)⟩

/-- C2: on the classic four-person instance with speeds `{1,2,5,10}`,
`Bridge::crossOptimally` returns 17 and `Bridge::crossNaively` returns 19. -/
theorem c2_classic_instance :
    (crossOptimally [⟨"A", 1⟩, ⟨"B", 2⟩, ⟨"C", 5⟩, ⟨"D", 10⟩]).total = 17 ∧
      (crossNaively [⟨"A", 1⟩, ⟨"B", 2⟩, ⟨"C", 5⟩, ⟨"D", 10⟩]).total = 19 := by
  constructor <;> decide

/-- C3 counterexample: on the sorted roster with speeds `1,2,3,4` the two
candidate costs tie (both are 9), yet `crossOptimally`'s main loop emits the
pairwise-branch events (slowest with fastest first), not the shielding-branch
events; so on an exact tie the implementation takes the pairwise branch, not
the shielding branch as claimed. -/
theorem c3_counterexample :
    shieldingCost [⟨"A", 1⟩, ⟨"B", 2⟩, ⟨"C", 3⟩, ⟨"D", 4⟩] =
        pairwiseCost [⟨"A", 1⟩, ⟨"B", 2⟩, ⟨"C", 3⟩, ⟨"D", 4⟩] ∧
      (shieldLoop [⟨"A", 1⟩, ⟨"B", 2⟩, ⟨"C", 3⟩, ⟨"D", 4⟩]).events =
        [Event.cross2 ⟨"D", 4⟩ ⟨"A", 1⟩, Event.ret ⟨"A", 1⟩,
         Event.cross2 ⟨"C", 3⟩ ⟨"A", 1⟩, Event.ret ⟨"A", 1⟩,
         Event.cross2 ⟨"B", 2⟩ ⟨"A", 1⟩] ∧
      (shieldLoop [⟨"A", 1⟩, ⟨"B", 2⟩, ⟨"C", 3⟩, ⟨"D", 4⟩]).events.take 4 ≠
        shieldStepEvents [⟨"A", 1⟩, ⟨"B", 2⟩, ⟨"C", 3⟩, ⟨"D", 4⟩] := by
  refine ⟨by decide, by decide, by decide⟩

/-- C3 (amended): in each main-loop iteration (remaining count ≥ 4) the
shielding branch is taken only when the shielding cost is strictly smaller
than the pairwise cost; whenever the pairwise cost is less than or equal to
the shielding cost — including exact ties — the pairwise branch is taken. -/
theorem c3_tie_break (ps : List Person) (h4 : 4 ≤ ps.length) :
    (shieldingCost ps < pairwiseCost ps →
        shieldLoop ps =
          ⟨shieldingCost ps + (shieldLoop ps.dropLast.dropLast).total,
           shieldStepEvents ps ++ (shieldLoop ps.dropLast.dropLast).events,
           (shieldLoop ps.dropLast.dropLast).waitingPeople⟩) ∧
      (pairwiseCost ps ≤ shieldingCost ps →
        shieldLoop ps =
          ⟨pairwiseCost ps + (shieldLoop ps.dropLast.dropLast).total,
           pairwiseStepEvents ps ++ (shieldLoop ps.dropLast.dropLast).events,
           (shieldLoop ps.dropLast.dropLast).waitingPeople⟩) := by
  constructor
  · intro hlt
    rw [shieldLoop_eq_loop ps h4, if_pos hlt]
  · intro hle
    rw [shieldLoop_eq_loop ps h4, if_neg (by omega)]

theorem c3_tie_break_witness :
    4 ≤ ([⟨"A", 1⟩, ⟨"B", 2⟩, ⟨"C", 3⟩, ⟨"D", 4⟩] : List Person).length ∧
      pairwiseCost [⟨"A", 1⟩, ⟨"B", 2⟩, ⟨"C", 3⟩, ⟨"D", 4⟩] ≤
        shieldingCost [⟨"A", 1⟩, ⟨"B", 2⟩, ⟨"C", 3⟩, ⟨"D", 4⟩] ∧
      shieldLoop [⟨"A", 1⟩, ⟨"B", 2⟩, ⟨"C", 3⟩, ⟨"D", 4⟩] =
        ⟨pairwiseCost [⟨"A", 1⟩, ⟨"B", 2⟩, ⟨"C", 3⟩, ⟨"D", 4⟩] +
           (shieldLoop ([⟨"A", 1⟩, ⟨"B", 2⟩, ⟨"C", 3⟩,
             ⟨"D", 4⟩] : List Person).dropLast.dropLast).total,
         pairwiseStepEvents [⟨"A", 1⟩, ⟨"B", 2⟩, ⟨"C", 3⟩, ⟨"D", 4⟩] ++
           (shieldLoop ([⟨"A", 1⟩, ⟨"B", 2⟩, ⟨"C", 3⟩,
             ⟨"D", 4⟩] : List Person).dropLast.dropLast).events,
         (shieldLoop ([⟨"A", 1⟩, ⟨"B", 2⟩, ⟨"C", 3⟩,
           ⟨"D", 4⟩] : List Person).dropLast.dropLast).waitingPeople⟩ :=
  ⟨by decide, by decide, (c3_tie_break _ (by decide)).2 (by decide)⟩

/-- C4: the empty roster gives total 0 with no crossing events for both
solvers; a singleton roster gives the person's speed for both solvers; a
two-person roster gives the maximum of the two speeds for both solvers. -/
theorem c4_base_cases :
    (crossNaively ([] : List Person)).total = 0 ∧
      (crossNaively ([] : List Person)).events = [] ∧
      (crossOptimally ([] : List Person)).total = 0 ∧
      (crossOptimally ([] : List Person)).events = [] ∧
      (∀ p : Person, (crossNaively [p]).total = p.speed ∧
        (crossOptimally [p]).total = p.speed) ∧
      (∀ a b : Person, a.speed < INT_MAX → b.speed < INT_MAX →
        (crossNaively [a, b]).total = max a.speed b.speed ∧
          (crossOptimally [a, b]).total = max a.speed b.speed) := by
  refine ⟨rfl, rfl, rfl, rfl, ?_, ?_⟩
  · intro p
    rw [crossNaively_singleton, crossOptimally_singleton]
    exact ⟨rfl, rfl⟩
  · intro a b ha _
    exact ⟨crossNaively_pair a b ha, crossOptimally_pair a b⟩

theorem c4_base_cases_witness :
    (crossNaively [⟨"X", 7⟩]).total = 7 ∧
      (crossNaively [⟨"X", 3⟩, ⟨"Y", 9⟩]).total = 9 ∧
      (crossOptimally [⟨"X", 3⟩, ⟨"Y", 9⟩]).total = 9 := by
  have h1 := (c4_base_cases.2.2.2.2.1 ⟨"X", 7⟩).1
  have h2 := c4_base_cases.2.2.2.2.2 ⟨"X", 3⟩ ⟨"Y", 9⟩ (by decide) (by decide)
  exact ⟨h1, by simpa using h2.1, by simpa using h2.2⟩

/-- C5: for every roster with at least two people (all speeds in `int`
range), the greedy total is the sum of the speeds of the `N - 1` people other
than a chosen minimum-speed person plus `(N - 2)` times that minimum speed. -/
theorem c5_naive_closed_form (ps : List Person) (h2 : 2 ≤ ps.length)
    (hv : ValidRoster ps) :
    (crossNaively ps).total =
      (speedSum ps - minSpeed ps) + (ps.length - 2) * minSpeed ps := by
  have h := crossNaively_total_eq ps h2 (fun p hp => (hv p hp).2)
  have hle : minSpeed ps ≤ speedSum ps := by
    apply minSpeed_le_speedSum
    intro he
    rw [he] at h2
    simp at h2
  generalize (ps.length - 2) * minSpeed ps = A at h ⊢
  omega

theorem c5_naive_closed_form_witness :
    2 ≤ ([⟨"A", 3⟩, ⟨"B", 5⟩, ⟨"C", 6⟩] : List Person).length ∧
      ValidRoster [⟨"A", 3⟩, ⟨"B", 5⟩, ⟨"C", 6⟩] ∧
      (crossNaively [⟨"A", 3⟩, ⟨"B", 5⟩, ⟨"C", 6⟩]).total =
        (speedSum [⟨"A", 3⟩, ⟨"B", 5⟩, ⟨"C", 6⟩] -
            minSpeed [⟨"A", 3⟩, ⟨"B", 5⟩, ⟨"C", 6⟩]) +
          (([⟨"A", 3⟩, ⟨"B", 5⟩, ⟨"C", 6⟩] : List Person).length - 2) *
            minSpeed [⟨"A", 3⟩, ⟨"B", 5⟩, ⟨"C", 6⟩] :=
  ⟨by decide, by decide, c5_naive_closed_form _ (by decide) (by decide)⟩

/-- C6: when exactly three people remain after `crossOptimally`'s main loop,
the base case adds `speed[0] + speed[1] + speed[2]` (fastest + middle +
slowest of the remaining three) and logs exactly: slowest and fastest cross,
fastest returns, middle and fastest cross — then pops all three. -/
theorem c6_three_left (ps : List Person) (h3 : ps.length = 3) :
    shieldLoop ps = shieldBase ps ∧
      shieldBase ps =
        ⟨spAt ps 0 + spAt ps 1 + spAt ps 2,
         [Event.cross2 (personAt ps 2) (personAt ps 0), Event.ret (personAt ps 0),
          Event.cross2 (personAt ps 1) (personAt ps 0)],
         []⟩ := by
  constructor
  · exact shieldLoop_eq_base ps (by omega)
  · have hnil : ps.dropLast.dropLast.dropLast = [] := by
      apply List.eq_nil_of_length_eq_zero
      simp only [List.length_dropLast]
      omega
    rw [shieldBase, if_neg (by omega), if_neg (by omega), if_neg (by omega), hnil]

theorem c6_three_left_witness :
    shieldLoop [⟨"A", 1⟩, ⟨"B", 2⟩, ⟨"C", 5⟩] =
        shieldBase [⟨"A", 1⟩, ⟨"B", 2⟩, ⟨"C", 5⟩] ∧
      shieldBase [⟨"A", 1⟩, ⟨"B", 2⟩, ⟨"C", 5⟩] =
        ⟨spAt [⟨"A", 1⟩, ⟨"B", 2⟩, ⟨"C", 5⟩] 0 + spAt [⟨"A", 1⟩, ⟨"B", 2⟩, ⟨"C", 5⟩] 1 +
           spAt [⟨"A", 1⟩, ⟨"B", 2⟩, ⟨"C", 5⟩] 2,
         [Event.cross2 (personAt [⟨"A", 1⟩, ⟨"B", 2⟩, ⟨"C", 5⟩] 2)
            (personAt [⟨"A", 1⟩, ⟨"B", 2⟩, ⟨"C", 5⟩] 0),
          Event.ret (personAt [⟨"A", 1⟩, ⟨"B", 2⟩, ⟨"C", 5⟩] 0),
          Event.cross2 (personAt [⟨"A", 1⟩, ⟨"B", 2⟩, ⟨"C", 5⟩] 1)
            (personAt [⟨"A", 1⟩, ⟨"B", 2⟩, ⟨"C", 5⟩] 0)],
         []⟩ :=
  c6_three_left _ rfl

/-- C7: permuting the roster never changes either solver's total; each total
depends only on the multiset of speeds. -/
theorem c7_permutation_invariance (ps qs : List Person) (h : ps.Perm qs)
    (hv : ValidRoster ps) :
    (crossNaively ps).total = (crossNaively qs).total ∧
      (crossOptimally ps).total = (crossOptimally qs).total := by
  constructor
  · rcases ps with - | ⟨p, rest⟩
    · rw [List.nil_perm] at h
      rw [h]
    · rcases rest with - | ⟨q, rest'⟩
      · have hq := List.perm_singleton.mp h.symm
        rw [hq]
      · have h2 : 2 ≤ (p :: q :: rest').length := by simp
        have h2' : 2 ≤ qs.length := by
          rw [← h.length_eq]
          exact h2
        have hv1 : ∀ r ∈ p :: q :: rest', r.speed < INT_MAX :=
          fun r hr => (hv r hr).2
        have hv2 : ∀ r ∈ qs, r.speed < INT_MAX :=
          fun r hr => (hv r (h.mem_iff.mpr hr)).2
        have e1 := crossNaively_total_eq _ h2 hv1
        have e2 := crossNaively_total_eq qs h2' hv2
        rw [← minSpeed_perm h, ← speedSum_perm h, ← h.length_eq] at e2
        generalize ((p :: q :: rest').length - 2) * minSpeed (p :: q :: rest') = A at e1 e2
        omega
  · rw [crossOptimally, crossOptimally]
    exact shieldLoop_total_speeds _ _ (insertionSort_map_speed_perm h)

theorem c7_permutation_invariance_witness :
    ([⟨"A", 2⟩, ⟨"B", 7⟩, ⟨"C", 4⟩] : List Person).Perm
        [⟨"C", 4⟩, ⟨"A", 2⟩, ⟨"B", 7⟩] ∧
      ValidRoster [⟨"A", 2⟩, ⟨"B", 7⟩, ⟨"C", 4⟩] ∧
      (crossNaively [⟨"A", 2⟩, ⟨"B", 7⟩, ⟨"C", 4⟩]).total =
        (crossNaively [⟨"C", 4⟩, ⟨"A", 2⟩, ⟨"B", 7⟩]).total ∧
      (crossOptimally [⟨"A", 2⟩, ⟨"B", 7⟩, ⟨"C", 4⟩]).total =
        (crossOptimally [⟨"C", 4⟩, ⟨"A", 2⟩, ⟨"B", 7⟩]).total := by
  have hp : ([⟨"A", 2⟩, ⟨"B", 7⟩, ⟨"C", 4⟩] : List Person).Perm
      [⟨"C", 4⟩, ⟨"A", 2⟩, ⟨"B", 7⟩] := by decide
  have := c7_permutation_invariance _ _ hp (by decide)
  exact ⟨hp, by decide, this.1, this.2⟩

/-- C8: increasing any single person's speed, holding the others fixed, never
decreases either solver's total. -/
theorem c8_monotone (xs ys : List Person) (p : Person) (s' : Nat)
    (hps : p.speed ≤ s') (hs' : s' < INT_MAX)
    (hv : ValidRoster (xs ++ p :: ys)) :
    (crossNaively (xs ++ p :: ys)).total ≤
        (crossNaively (xs ++ ⟨p.name, s'⟩ :: ys)).total ∧
      (crossOptimally (xs ++ p :: ys)).total ≤
        (crossOptimally (xs ++ ⟨p.name, s'⟩ :: ys)).total := by
  constructor
  · by_cases hxy : xs ++ ys = []
    · rcases List.append_eq_nil.mp hxy with ⟨rfl, rfl⟩
      simp only [List.nil_append]
      rw [crossNaively_singleton, crossNaively_singleton]
      exact hps
    · have h0 : 0 < (xs ++ ys).length := List.length_pos.mpr hxy
      have hlen : 2 ≤ (xs ++ p :: ys).length := by
        simp only [List.length_append, List.length_cons] at *
        omega
      have hlen' : (xs ++ (⟨p.name, s'⟩ : Person) :: ys).length
          = (xs ++ p :: ys).length := by
        simp [List.length_append, List.length_cons]
      have hv2 : ∀ r ∈ xs ++ (⟨p.name, s'⟩ : Person) :: ys, r.speed < INT_MAX := by
        intro r hr
        rcases List.mem_append.mp hr with hr' | hr'
        · exact (hv r (List.mem_append.mpr (Or.inl hr'))).2
        · rcases List.mem_cons.mp hr' with rfl | hr''
          · exact hs'
          · exact (hv r (List.mem_append.mpr (Or.inr (List.mem_cons_of_mem _ hr'')))).2
      have e1 := crossNaively_total_eq (xs ++ p :: ys) hlen
        (fun r hr => (hv r hr).2)
      have e2 := crossNaively_total_eq (xs ++ (⟨p.name, s'⟩ : Person) :: ys)
        (by omega) hv2
      rw [hlen'] at e2
      rw [minSpeed_middle xs p ys hxy, speedSum_middle xs p ys] at e1
      rw [minSpeed_middle xs _ ys hxy, speedSum_middle xs _ ys] at e2
      have hsp' : (⟨p.name, s'⟩ : Person).speed = s' := rfl
      rw [hsp'] at e2
      rcases Nat.le_total s' (minSpeed (xs ++ ys)) with hA | hA
      · have hp1 : min p.speed (minSpeed (xs ++ ys)) = p.speed := by omega
        have hp2 : min s' (minSpeed (xs ++ ys)) = s' := by omega
        rw [hp1] at e1
        rw [hp2] at e2
        have hAB : ((xs ++ p :: ys).length - 2) * p.speed ≤
            ((xs ++ p :: ys).length - 2) * s' :=
          Nat.mul_le_mul (Nat.le_refl _) hps
        generalize ((xs ++ p :: ys).length - 2) * p.speed = A at e1 hAB
        generalize ((xs ++ p :: ys).length - 2) * s' = B at e2 hAB
        omega
      · rcases Nat.le_total p.speed (minSpeed (xs ++ ys)) with hB | hB
        · have hp1 : min p.speed (minSpeed (xs ++ ys)) = p.speed := by omega
          have hp2 : min s' (minSpeed (xs ++ ys)) = minSpeed (xs ++ ys) := by omega
          rw [hp1] at e1
          rw [hp2] at e2
          have hAB : ((xs ++ p :: ys).length - 2) * p.speed ≤
              ((xs ++ p :: ys).length - 2) * minSpeed (xs ++ ys) :=
            Nat.mul_le_mul (Nat.le_refl _) hB
          generalize ((xs ++ p :: ys).length - 2) * p.speed = A at e1 hAB
          generalize ((xs ++ p :: ys).length - 2) * minSpeed (xs ++ ys) = B at e2 hAB
          omega
        · have hp1 : min p.speed (minSpeed (xs ++ ys)) = minSpeed (xs ++ ys) := by
            omega
          have hp2 : min s' (minSpeed (xs ++ ys)) = minSpeed (xs ++ ys) := by omega
          rw [hp1] at e1
          rw [hp2] at e2
          generalize ((xs ++ p :: ys).length - 2) * minSpeed (xs ++ ys) = A at e1 e2
          omega
  · rw [crossOptimally, crossOptimally]
    exact shieldLoop_total_mono _ _
      (forall₂_insertionSort_update xs ys p ⟨p.name, s'⟩ hps)

theorem c8_monotone_witness :
    (⟨"B", 4⟩ : Person).speed ≤ 6 ∧
      ValidRoster ([⟨"A", 3⟩] ++ ⟨"B", 4⟩ :: [⟨"C", 5⟩]) ∧
      (crossNaively ([⟨"A", 3⟩] ++ ⟨"B", 4⟩ :: [⟨"C", 5⟩])).total ≤
        (crossNaively ([⟨"A", 3⟩] ++ ⟨"B", 6⟩ :: [⟨"C", 5⟩])).total ∧
      (crossOptimally ([⟨"A", 3⟩] ++ ⟨"B", 4⟩ :: [⟨"C", 5⟩])).total ≤
        (crossOptimally ([⟨"A", 3⟩] ++ ⟨"B", 6⟩ :: [⟨"C", 5⟩])).total := by
  have := c8_monotone [⟨"A", 3⟩] [⟨"C", 5⟩] ⟨"B", 4⟩ 6 (by decide) (by decide) (by decide)
  exact ⟨by decide, by decide, this.1, this.2⟩

/-- C9 counterexample: `Bridge::crossNaively` does not modify the
`waitingPeople` collection — on the concrete two-person roster it returns the
member vector exactly as it found it, contradicting the claim that both
solvers mutate the roster and in particular that `crossNaively` modifies
`waitingPeople`. -/
theorem c9_counterexample :
    (crossNaively [⟨"A", 1⟩, ⟨"B", 2⟩]).waitingPeople = [⟨"A", 1⟩, ⟨"B", 2⟩] := by
  decide

/-- C9 (amended): only `Bridge::crossOptimally` mutates the roster it runs on
(it sorts `waitingPeople` in place and drains it, leaving it empty);
`Bridge::crossNaively` reads `waitingPeople` but never writes it — it copies
the non-fastest people into a local queue and drains that copy — so re-running
a solver after `crossNaively` needs no reload, while after `crossOptimally`
the roster must be re-loaded or copied. -/
theorem c9_roster_mutation (ps : List Person) :
    (crossNaively ps).waitingPeople = ps ∧
      (crossOptimally ps).waitingPeople = [] :=
  ⟨crossNaively_waiting ps, crossOptimally_waiting ps⟩

/-- C10: for every starting roster, `Bridge::crossOptimally` leaves the
`waitingPeople` vector empty when it returns. -/
theorem c10_optimally_drains (ps : List Person) :
    (crossOptimally ps).waitingPeople = [] :=
  crossOptimally_waiting ps

end CrossBridge
